import Mathlib

/-!
Shallow embedding of the Absurdle-Solver notebook (`src/solver.ipynb`).

The notebook's core consists of:
* `append_sequence_no` — tags every position of a letter vector with its running
  occurrence number (1-based) within the word;
* `match_pattern_vec` — the Wordle feedback algorithm on two 5-letter words,
  returning a ternary vector (BLACK = 0, YELLOW = 1, GREEN = 2);
* `match_pattern` — the base-3 integer encoding of that vector, position 0 being
  the least-significant digit;
* `reduce_targets_by_test` — the adversarial partition step: group candidate
  targets by feedback pattern against a test word and keep the largest group.

Words are modelled as `String`s whose UTF-8 code points are decoded and offset
by 97 exactly as `tf.strings.unicode_decode(word, 'UTF-8') - 97` does, giving a
`List Int` of letter codes in `[0, 26)` for lowercase words.  Tensor operations
become list operations: `tf.scan`/`tf.one_hot`/`tf.gather_nd` become the
prefix-count `seq_no`, `tf.unique_with_counts` becomes `uniqueList` (unique
values in order of first appearance) together with `List.indexOf` (placement
indices) and `List.count` (multiplicities), and `tf.argmax` is modelled as the
first index attaining the maximum, the deterministic behaviour of the kernel.
-/

namespace Absurdle

/-- `word_length` from the notebook: all words have 5 letters. -/
def word_length : Nat := 5

/-- Decoding a word into its offset byte vector, as in
`tf.strings.unicode_decode(w, 'UTF-8') - 97`: each character's code point
minus 97 (so lowercase `a`–`z` map to `0`–`25`). -/
def decode (s : String) : List Int := s.data.map (fun c => (c.toNat : Int) - 97)

/-- The running occurrence number of the letter at index `i` of `w`, i.e. the
entry `counter[i][w[i]]` gathered in `append_sequence_no`: `counter` is the
`tf.scan` of `tf.one_hot(x, 26)`, so `counter[i][c]` counts occurrences of `c`
among `w[0..i]` for `c ∈ [0, 26)` (`tf.one_hot` of an out-of-range value such as
the mask `-1` is the zero vector).  Gathering at an out-of-range letter (a
masked `-1`) is modelled as `0`; the value is irrelevant downstream because a
pair with letter `-1` never matches any pair of an unmasked word. -/
def seq_no (w : List Int) (i : Nat) : Nat :=
  if 0 ≤ w.getD i 0 ∧ w.getD i 0 < 26 then
    (w.take (i + 1)).countP (fun y => y = w.getD i 0)
  else 0

/-- `append_sequence_no(word)`: the stacked pairs `(word[i], sequence_no[i])`
for `i` ranging over the word's positions. -/
def append_sequence_no (w : List Int) : List (Int × Nat) :=
  (List.range w.length).map (fun i => (w.getD i 0, seq_no w i))

/-- `green_mask = cast(test == target, int32)`: positionwise letter agreement. -/
def green_mask (test target : List Int) : List Int :=
  List.zipWith (fun a b => if a = b then 1 else 0) test target

/-- `test_masked = where(green_mask, -1, test)`: the test word with the green
positions replaced by `-1` (the green letters are *not* removed from the
target — the source only masks the test side). -/
def test_masked (test target : List Int) : List Int :=
  List.zipWith (fun a b => if a = b then -1 else a) test target

/-- `yellow_mask`: a test position is yellow when its `(letter, sequence
number)` pair in the masked test occurs among the target's pairs. -/
def yellow_mask (test target : List Int) : List Int :=
  (append_sequence_no (test_masked test target)).map
    (fun p => if p ∈ append_sequence_no target then 1 else 0)

/-- `match_pattern_vec(test, target)`: the Wordle feedback vector
`2 * green_mask + 1 * yellow_mask` on the decoded words. -/
def match_pattern_vec (test target : String) : List Int :=
  List.zipWith (fun gi yi => 2 * gi + yi)
    (green_mask (decode test) (decode target))
    (yellow_mask (decode test) (decode target))

/-- `match_pattern(test, target) = reduce_sum(match_pattern_vec * 3 ** range(5))`:
the ternary vector read with position 0 as the least-significant digit. -/
def match_pattern (test target : String) : Int :=
  (List.zipWith (fun v i => v * 3 ^ i) (match_pattern_vec test target)
    (List.range word_length)).sum

/-- Accumulator recursion computing the unique values of a list in order of
first appearance, skipping the values already `seen`. -/
def uniqueListAux (seen : List Int) : List Int → List Int
  | [] => []
  | x :: xs => if x ∈ seen then uniqueListAux seen xs else x :: uniqueListAux (x :: seen) xs

/-- The unique values of a list in order of first appearance — the first result
of `tf.unique_with_counts`. -/
def uniqueList (l : List Int) : List Int := uniqueListAux [] l

/-- `reduce_targets_by_test(targets, test)`: score every candidate target
against the test word, group the candidates by pattern with
`tf.unique_with_counts`, take `tf.argmax` of the group counts (the first index
attaining the maximal count), and keep — in order — the candidates whose
pattern index is the arg-max index. -/
def reduce_targets_by_test (targets : List String) (test : String) : List String :=
  let patterns := targets.map (fun target => match_pattern test target)
  let unique_patterns := uniqueList patterns
  let pattern_indices := patterns.map (fun p => unique_patterns.indexOf p)
  let pattern_counts := unique_patterns.map (fun p => patterns.count p)
  let idx_max := pattern_counts.indexOf (pattern_counts.foldr max 0)
  ((targets.zip pattern_indices).filter (fun ti => ti.2 == idx_max)).map Prod.fst

/-- The pattern of the winning (kept) group of `reduce_targets_by_test`:
the unique pattern sitting at the arg-max index of the group counts. -/
def winning_pattern (targets : List String) (test : String) : Int :=
  let patterns := targets.map (fun target => match_pattern test target)
  let unique_patterns := uniqueList patterns
  let pattern_counts := unique_patterns.map (fun p => patterns.count p)
  (unique_patterns.getD (pattern_counts.indexOf (pattern_counts.foldr max 0)) 0)

/-- The cardinality of the largest pattern group formed by
`reduce_targets_by_test`: the maximum of the per-pattern counts delivered by
`tf.unique_with_counts`. -/
def max_group_count (targets : List String) (test : String) : Nat :=
  let patterns := targets.map (fun target => match_pattern test target)
  ((uniqueList patterns).map (fun p => patterns.count p)).foldr max 0

/-- A word valid for the solver's domain: exactly 5 characters, all lowercase
letters. -/
def ValidWord (s : String) : Prop :=
  s.length = word_length ∧ ∀ c ∈ s.data, 'a' ≤ c ∧ c ≤ 'z'

instance : DecidablePred ValidWord := fun s => by
  unfold ValidWord; infer_instance

/-! ### Basic facts about `uniqueListAux` / `uniqueList` -/

theorem mem_uniqueListAux {p : Int} {l : List Int} :
    ∀ {seen : List Int}, p ∈ uniqueListAux seen l ↔ p ∈ l ∧ p ∉ seen := by
  induction l with
  | nil => intro seen; simp [uniqueListAux]
  | cons x xs ih =>
    intro seen
    by_cases hx : x ∈ seen
    · rcases eq_or_ne p x with rfl | hpx
      · simp [uniqueListAux, hx, ih]
      · simp [uniqueListAux, hx, ih, hpx]
    · rcases eq_or_ne p x with rfl | hpx
      · simp [uniqueListAux, hx]
      · simp only [uniqueListAux, if_neg hx, List.mem_cons, ih, List.mem_cons]
        constructor
        · rintro (rfl | ⟨hmem, hseen⟩)
          · exact absurd rfl hpx
          · exact ⟨Or.inr hmem, fun hs => hseen (Or.inr hs)⟩
        · rintro ⟨rfl | hmem, hseen⟩
          · exact absurd rfl hpx
          · exact Or.inr ⟨hmem, fun hs => hseen (hs.elim (fun h => absurd h hpx) id)⟩

theorem mem_uniqueList {p : Int} {l : List Int} : p ∈ uniqueList l ↔ p ∈ l := by
  simp [uniqueList, mem_uniqueListAux]

theorem nodup_uniqueListAux : ∀ {seen : List Int} {l : List Int}, (uniqueListAux seen l).Nodup := by
  intro seen l
  induction l generalizing seen with
  | nil => simp [uniqueListAux]
  | cons x xs ih =>
    by_cases hx : x ∈ seen
    · simpa [uniqueListAux, hx] using ih
    · simp only [uniqueListAux, if_neg hx, List.nodup_cons]
      refine ⟨fun hmem => ?_, ih⟩
      exact (mem_uniqueListAux.mp hmem).2 (List.mem_cons_self x seen)

theorem nodup_uniqueList {l : List Int} : (uniqueList l).Nodup := nodup_uniqueListAux

theorem uniqueList_ne_nil {l : List Int} (h : l ≠ []) : uniqueList l ≠ [] := by
  cases l with
  | nil => exact absurd rfl h
  | cons x xs => simp [uniqueList, uniqueListAux]

/-- `uniqueListAux` preserves the relative order of first occurrences: for two
values not yet seen, the one whose first occurrence comes earlier in `l` comes
earlier in the deduplicated list. -/
theorem indexOf_uniqueListAux_le_iff {p q : Int} :
    ∀ {seen l : List Int}, p ∈ l → q ∈ l → p ∉ seen → q ∉ seen →
      ((uniqueListAux seen l).indexOf p ≤ (uniqueListAux seen l).indexOf q ↔
        l.indexOf p ≤ l.indexOf q) := by
  intro seen l
  induction l generalizing seen with
  | nil => intro hp; exact absurd hp (List.not_mem_nil p)
  | cons x xs ih =>
    intro hp hq hps hqs
    by_cases hx : x ∈ seen
    · have hpx : p ≠ x := fun h => hps (h ▸ hx)
      have hqx : q ≠ x := fun h => hqs (h ▸ hx)
      have hp' : p ∈ xs := (List.mem_cons.mp hp).resolve_left hpx
      have hq' : q ∈ xs := (List.mem_cons.mp hq).resolve_left hqx
      rw [List.indexOf_cons_ne _ (Ne.symm hpx), List.indexOf_cons_ne _ (Ne.symm hqx)]
      simpa [uniqueListAux, hx] using ih hp' hq' hps hqs
    · rcases eq_or_ne p x with rfl | hpx
      · simp [uniqueListAux, hx, List.indexOf_cons_self]
      · rcases eq_or_ne q x with rfl | hqx
        · have hp' : p ∈ xs := (List.mem_cons.mp hp).resolve_left hpx
          simp only [uniqueListAux, if_neg hx, List.indexOf_cons_self,
            List.indexOf_cons_ne _ (Ne.symm hpx), Nat.succ_le_iff]
          simp
        · have hp' : p ∈ xs := (List.mem_cons.mp hp).resolve_left hpx
          have hq' : q ∈ xs := (List.mem_cons.mp hq).resolve_left hqx
          have hps' : p ∉ x :: seen := by
            intro h; exact ((List.mem_cons.mp h).elim (fun h1 => hpx h1) hps)
          have hqs' : q ∉ x :: seen := by
            intro h; exact ((List.mem_cons.mp h).elim (fun h1 => hqx h1) hqs)
          rw [List.indexOf_cons_ne _ (Ne.symm hpx), List.indexOf_cons_ne _ (Ne.symm hqx)]
          simp only [uniqueListAux, if_neg hx,
            List.indexOf_cons_ne _ (Ne.symm hpx), List.indexOf_cons_ne _ (Ne.symm hqx)]
          have := ih hp' hq' hps' hqs'
          omega

theorem indexOf_uniqueList_le_iff {p q : Int} {l : List Int} (hp : p ∈ l) (hq : q ∈ l) :
    ((uniqueList l).indexOf p ≤ (uniqueList l).indexOf q ↔ l.indexOf p ≤ l.indexOf q) :=
  indexOf_uniqueListAux_le_iff hp hq (List.not_mem_nil p) (List.not_mem_nil q)

/-! ### Facts about `tf.argmax` modelled as first index of the maximum -/

theorem foldr_max_mem : ∀ {l : List Nat}, l ≠ [] → l.foldr max 0 ∈ l := by
  intro l
  induction l with
  | nil => intro h; exact absurd rfl h
  | cons a l ih =>
    intro _
    cases l with
    | nil => simp
    | cons b m =>
      rcases max_choice a ((b :: m).foldr max 0) with h | h
      · simp only [List.foldr_cons] at h ⊢
        rw [h]; exact List.mem_cons_self _ _
      · simp only [List.foldr_cons] at h ⊢
        rw [h]
        exact List.mem_cons_of_mem _ (ih (by simp))

theorem le_foldr_max {a : Nat} : ∀ {l : List Nat}, a ∈ l → a ≤ l.foldr max 0 := by
  intro l
  induction l with
  | nil => intro h; exact absurd h (List.not_mem_nil a)
  | cons b m ih =>
    intro h
    rcases List.mem_cons.mp h with rfl | h
    · exact le_max_left _ _
    · exact (ih h).trans (le_max_right _ _)

/-- `List.indexOf` returns the index of the first occurrence: every earlier
entry differs from the sought value. -/
theorem getElem_ne_of_lt_indexOf {α : Type} [DecidableEq α] {l : List α} {a : α}
    {j : Nat} (hj : j < l.length) (hlt : j < l.indexOf a) : l[j] ≠ a := by
  induction l generalizing j with
  | nil => simp at hj
  | cons x xs ih =>
    by_cases hxa : x = a
    · subst hxa
      rw [List.indexOf_cons_self] at hlt
      exact absurd hlt (Nat.not_lt_zero j)
    · rw [List.indexOf_cons_ne _ hxa] at hlt
      cases j with
      | zero => simpa using hxa
      | succ j =>
        have hj2 : j < xs.length := by simpa using Nat.lt_of_succ_lt_succ hj
        have hlt2 : j < xs.indexOf a := Nat.lt_of_succ_lt_succ hlt
        simpa using ih hj2 hlt2

/-- Two boolean equality tests agree when the underlying propositions are
equivalent. -/
theorem beq_congr {α β : Type} [BEq α] [LawfulBEq α] [BEq β] [LawfulBEq β]
    {a b : α} {c d : β} (h : (a = b) ↔ (c = d)) : (a == b) = (c == d) := by
  by_cases hab : a = b
  · have hcd : c = d := h.mp hab
    subst hab; subst hcd
    simp
  · have hcd : ¬ c = d := fun hc => hab (h.mpr hc)
    simp [beq_eq_false_iff_ne, hab, hcd]

/-! ### Characterization of `reduce_targets_by_test` -/

/-- The winning pattern realizes the maximal group count, every group count is
bounded by the maximal one, and the kept survivors are exactly the candidates
scoring the winning pattern, in their original order. -/
theorem reduce_characterization (targets : List String) (test : String) (h : targets ≠ []) :
    (targets.map (fun target => match_pattern test target)).count (winning_pattern targets test)
        = max_group_count targets test
    ∧ (∀ p : Int, (targets.map (fun target => match_pattern test target)).count p
        ≤ max_group_count targets test)
    ∧ reduce_targets_by_test targets test
        = targets.filter (fun t => match_pattern test t == winning_pattern targets test) := by
  simp only [winning_pattern, max_group_count, reduce_targets_by_test]
  set f := fun target => match_pattern test target with hf
  set pats := targets.map f with hpats
  set uniq := uniqueList pats with huniq
  set counts := uniq.map (fun p => pats.count p) with hcounts
  set maxc := counts.foldr max 0 with hmaxc
  set imax := counts.indexOf maxc with himax
  have hpne : pats ≠ [] := by
    rw [hpats]
    simpa using h
  have hune : uniq ≠ [] := huniq ▸ uniqueList_ne_nil hpne
  have hcne : counts ≠ [] := by
    rw [hcounts]
    simpa using hune
  have hmaxmem : maxc ∈ counts := foldr_max_mem hcne
  have hilt : imax < counts.length := List.indexOf_lt_length.mpr hmaxmem
  have hiltu : imax < uniq.length := by
    rw [hcounts, List.length_map] at hilt
    exact hilt
  have hwd : uniq.getD imax 0 = uniq[imax] := List.getD_eq_getElem uniq 0 hiltu
  have hcget : counts[imax] = maxc := List.getElem_indexOf hilt
  have hcount_w : pats.count (uniq[imax]) = maxc := by
    have hmap : counts[imax] = pats.count (uniq[imax]) := List.getElem_map _
    rw [← hmap, hcget]
  have hle : ∀ p : Int, pats.count p ≤ maxc := by
    intro p
    by_cases hp : p ∈ pats
    · have hpu : p ∈ uniq := huniq ▸ mem_uniqueList.mpr hp
      have : pats.count p ∈ counts := by
        rw [hcounts]
        exact List.mem_map_of_mem _ hpu
      exact le_foldr_max this
    · rw [List.count_eq_zero.mpr hp]
      exact Nat.zero_le _
  refine ⟨by rw [hwd]; exact hcount_w, hle, ?_⟩
  have hzip : targets.zip (pats.map fun p => uniq.indexOf p)
      = targets.map (fun t => (t, uniq.indexOf (f t))) := by
    have h1 := List.zip_map' id (fun t => uniq.indexOf (f t)) targets
    simp only [List.map_id, id] at h1
    rw [hpats, List.map_map]
    simpa [Function.comp] using h1
  rw [hzip, List.filter_map, List.map_map]
  have hcomp : (Prod.fst ∘ fun t => (t, uniq.indexOf (f t))) = id := rfl
  rw [hcomp, List.map_id]
  apply List.filter_congr
  intro t _
  have hiff : (uniq.indexOf (f t) = imax) ↔ (f t = uniq.getD imax 0) := by
    rw [hwd]
    constructor
    · intro he
      have hflt : uniq.indexOf (f t) < uniq.length := by rw [he]; exact hiltu
      have hge := List.getElem_indexOf hflt
      calc f t = uniq[uniq.indexOf (f t)] := hge.symm
        _ = uniq[imax] := by congr 1
    · intro he
      have := List.indexOf_getElem (huniq ▸ nodup_uniqueList) imax hiltu
      rw [he]
      exact this
  exact beq_congr hiff

theorem max_group_count_pos (targets : List String) (test : String) (h : targets ≠ []) :
    1 ≤ max_group_count targets test := by
  obtain ⟨t0, ht0⟩ := List.exists_mem_of_ne_nil targets h
  have hmem : match_pattern test t0 ∈ targets.map (fun target => match_pattern test target) :=
    List.mem_map_of_mem _ ht0
  have h1 : 0 < (targets.map (fun target => match_pattern test target)).count
      (match_pattern test t0) := List.count_pos_iff.mpr hmem
  exact h1.trans_le ((reduce_characterization targets test h).2.1 _)

theorem winning_pattern_mem (targets : List String) (test : String) (h : targets ≠ []) :
    winning_pattern targets test ∈ targets.map (fun target => match_pattern test target) := by
  apply List.count_pos_iff.mp
  rw [(reduce_characterization targets test h).1]
  exact max_group_count_pos targets test h

theorem length_reduce_eq_count (targets : List String) (test : String) (h : targets ≠ []) :
    (reduce_targets_by_test targets test).length
      = (targets.map (fun target => match_pattern test target)).count
          (winning_pattern targets test) := by
  rw [(reduce_characterization targets test h).2.2, ← List.countP_eq_length_filter,
    List.count_eq_countP, List.countP_map]
  rfl

/-- Among the pattern groups tied at the maximal cardinality, the winning
pattern is the one appearing first in the scored pattern list (first-seen
tie-break). -/
theorem winning_pattern_first_seen (targets : List String) (test : String) (h : targets ≠ [])
    (p : Int)
    (hc : (targets.map (fun target => match_pattern test target)).count p
      = max_group_count targets test) :
    (targets.map (fun target => match_pattern test target)).indexOf (winning_pattern targets test)
      ≤ (targets.map (fun target => match_pattern test target)).indexOf p := by
  have hWmem := winning_pattern_mem targets test h
  have hpmem : p ∈ targets.map (fun target => match_pattern test target) := by
    apply List.count_pos_iff.mp
    rw [hc]
    exact max_group_count_pos targets test h
  rw [← indexOf_uniqueList_le_iff hWmem hpmem]
  simp only [winning_pattern]
  simp only [max_group_count] at hc
  set pats := targets.map (fun target => match_pattern test target) with hpats
  set uniq := uniqueList pats with huniq
  set counts := uniq.map (fun p => pats.count p) with hcounts
  set maxc := counts.foldr max 0 with hmaxc
  set imax := counts.indexOf maxc with himax
  have hpne : pats ≠ [] := by
    rw [hpats]
    simpa using h
  have hune : uniq ≠ [] := huniq ▸ uniqueList_ne_nil hpne
  have hcne : counts ≠ [] := by
    rw [hcounts]
    simpa using hune
  have hmaxmem : maxc ∈ counts := foldr_max_mem hcne
  have hilt : imax < counts.length := List.indexOf_lt_length.mpr hmaxmem
  have hiltu : imax < uniq.length := by
    rw [hcounts, List.length_map] at hilt
    exact hilt
  have hwd : uniq.getD imax 0 = uniq[imax] := List.getD_eq_getElem uniq 0 hiltu
  have hidxW : uniq.indexOf (uniq.getD imax 0) = imax := by
    rw [hwd]
    exact List.indexOf_getElem (huniq ▸ nodup_uniqueList) imax hiltu
  have hpuniq : p ∈ uniq := huniq ▸ mem_uniqueList.mpr hpmem
  have hjlt : uniq.indexOf p < uniq.length := List.indexOf_lt_length.mpr hpuniq
  have hjltc : uniq.indexOf p < counts.length := by
    rw [hcounts, List.length_map]
    exact hjlt
  have hgetj : uniq[uniq.indexOf p] = p := List.getElem_indexOf hjlt
  have hcountj : counts[uniq.indexOf p] = maxc := by
    have hmap : counts[uniq.indexOf p] = pats.count (uniq[uniq.indexOf p]) :=
      List.getElem_map _
    rw [hmap, hgetj, hc]
  have hnotlt : ¬ uniq.indexOf p < imax := fun hlt =>
    getElem_ne_of_lt_indexOf hjltc (himax ▸ hlt) hcountj
  rw [hidxW]
  omega

/-- Pigeonhole: the whole survivors list is covered by the pattern groups, each
of size at most the winning group's size. -/
theorem length_le_reduce_mul_card (targets : List String) (test : String) (h : targets ≠ []) :
    targets.length ≤ (reduce_targets_by_test targets test).length
      * (uniqueList (targets.map (fun target => match_pattern test target))).length := by
  have hchar := reduce_characterization targets test h
  have hlen := length_reduce_eq_count targets test h
  set M := max_group_count targets test with hM
  set pats := targets.map (fun target => match_pattern test target) with hpats
  have hlen2 : pats.length = targets.length := by
    rw [hpats, List.length_map]
  have hsum : ∑ a ∈ pats.toFinset, pats.count a = pats.length :=
    List.sum_toFinset_count_eq_length pats
  have hle : ∑ a ∈ pats.toFinset, pats.count a ≤ pats.toFinset.card * M := by
    have := Finset.sum_le_card_nsmul pats.toFinset (fun a => pats.count a) M
      (fun a _ => hchar.2.1 a)
    simpa [smul_eq_mul] using this
  have hcard : pats.toFinset.card = (uniqueList pats).length := by
    rw [← List.toFinset_card_of_nodup (nodup_uniqueList (l := pats))]
    congr 1
    ext a
    simp [List.mem_toFinset, mem_uniqueList]
  have hred : (reduce_targets_by_test targets test).length = M := by
    rw [hlen]
    exact hchar.1
  calc targets.length = pats.length := hlen2.symm
    _ = ∑ a ∈ pats.toFinset, pats.count a := hsum.symm
    _ ≤ pats.toFinset.card * M := hle
    _ = (uniqueList pats).length * M := by rw [hcard]
    _ = (reduce_targets_by_test targets test).length * (uniqueList pats).length := by
        rw [hred, Nat.mul_comm]

/-! ### Facts about the pattern matcher -/

theorem decode_length (s : String) : (decode s).length = s.length := by
  simp only [decode, List.length_map]
  rfl

theorem valid_decode {s : String} (h : ValidWord s) :
    (decode s).length = word_length ∧ ∀ x ∈ decode s, 0 ≤ x ∧ x < 26 := by
  refine ⟨by rw [decode_length]; exact h.1, ?_⟩
  intro x hx
  simp only [decode, List.mem_map] at hx
  obtain ⟨c, hc, rfl⟩ := hx
  have h1 := (h.2 c hc).1
  have h2 := (h.2 c hc).2
  have ha : 97 ≤ c.toNat := by
    simp only [Char.toNat]
    exact h1
  have hz : c.toNat ≤ 122 := by
    simp only [Char.toNat]
    exact h2
  omega

theorem length_append_sequence_no (w : List Int) :
    (append_sequence_no w).length = w.length := by
  simp [append_sequence_no]

theorem getElem_append_sequence_no (w : List Int) {i : Nat} (hw : i < w.length)
    (hi : i < (append_sequence_no w).length) :
    (append_sequence_no w)[i] = (w[i], seq_no w i) := by
  have hr : i < (List.range w.length).length := by
    rw [List.length_range]
    exact hw
  simp only [append_sequence_no, List.getElem_map, List.getElem_range]
  rw [List.getD_eq_getElem w 0 hw]

theorem fst_nonneg_of_mem_append_sequence_no {w : List Int} (hw : ∀ x ∈ w, 0 ≤ x)
    {pr : Int × Nat} (hpr : pr ∈ append_sequence_no w) : 0 ≤ pr.1 := by
  simp only [append_sequence_no, List.mem_map, List.mem_range] at hpr
  obtain ⟨i, hi, rfl⟩ := hpr
  have : w.getD i 0 = w[i] := List.getD_eq_getElem w 0 hi
  rw [this]
  exact hw _ (List.getElem_mem hi)

theorem length_match_pattern_vec (test target : String) :
    (match_pattern_vec test target).length
      = min (decode test).length (decode target).length := by
  simp [match_pattern_vec, green_mask, yellow_mask, test_masked,
    length_append_sequence_no]

/-- Per-index value of the feedback vector: twice the green indicator plus the
yellow indicator, the latter checking the masked pair against the target's
sequenced pairs. -/
theorem getElem_match_pattern_vec (test target : String) {i : Nat}
    (hi : i < (match_pattern_vec test target).length) :
    ∃ (h1 : i < (decode test).length) (h2 : i < (decode target).length),
      (match_pattern_vec test target)[i]
        = 2 * (if (decode test)[i] = (decode target)[i] then (1 : Int) else 0)
          + (if ((test_masked (decode test) (decode target)).getD i 0,
                seq_no (test_masked (decode test) (decode target)) i)
                ∈ append_sequence_no (decode target) then (1 : Int) else 0) := by
  have hlen := length_match_pattern_vec test target
  rw [hlen] at hi
  have h1 : i < (decode test).length := lt_of_lt_of_le hi (min_le_left _ _)
  have h2 : i < (decode target).length := lt_of_lt_of_le hi (min_le_right _ _)
  refine ⟨h1, h2, ?_⟩
  have hgm : i < (green_mask (decode test) (decode target)).length := by
    simp only [green_mask, List.length_zipWith]
    omega
  have htm : i < (test_masked (decode test) (decode target)).length := by
    simp only [test_masked, List.length_zipWith]
    omega
  have hax : i < (append_sequence_no (test_masked (decode test) (decode target))).length := by
    rw [length_append_sequence_no]
    exact htm
  have hym : i < (yellow_mask (decode test) (decode target)).length := by
    simp only [yellow_mask, List.length_map]
    exact hax
  have e1 : (match_pattern_vec test target)[i]
      = 2 * (green_mask (decode test) (decode target))[i]
        + (yellow_mask (decode test) (decode target))[i] := by
    simp only [match_pattern_vec]
    rw [List.getElem_zipWith]
  have e2 : (green_mask (decode test) (decode target))[i]
      = (if (decode test)[i] = (decode target)[i] then (1 : Int) else 0) := by
    simp only [green_mask]
    rw [List.getElem_zipWith]
  have e3 : (yellow_mask (decode test) (decode target))[i]
      = (if ((test_masked (decode test) (decode target)).getD i 0,
            seq_no (test_masked (decode test) (decode target)) i)
            ∈ append_sequence_no (decode target) then (1 : Int) else 0) := by
    simp only [yellow_mask]
    rw [List.getElem_map, getElem_append_sequence_no _ htm hax,
      ← List.getD_eq_getElem _ 0 htm]
  rw [e1, e2, e3]

/-- At a green position (equal letters) the vector entry is exactly 2: the
masked test letter is `-1`, and a pair with letter `-1` can never occur among
the sequenced pairs of a target whose letters are all nonnegative. -/
theorem getElem_match_pattern_vec_green (test target : String)
    (htar : ∀ x ∈ decode target, 0 ≤ x) {i : Nat}
    (hi : i < (match_pattern_vec test target).length)
    (h1 : i < (decode test).length) (h2 : i < (decode target).length)
    (heq : (decode test)[i] = (decode target)[i]) :
    (match_pattern_vec test target)[i] = 2 := by
  obtain ⟨h1x, h2x, he⟩ := getElem_match_pattern_vec test target hi
  rw [he, if_pos heq]
  have htm : i < (test_masked (decode test) (decode target)).length := by
    simp only [test_masked, List.length_zipWith]
    omega
  have hmask : (test_masked (decode test) (decode target)).getD i 0 = -1 := by
    rw [List.getD_eq_getElem _ 0 htm]
    simp only [test_masked]
    rw [List.getElem_zipWith, if_pos heq]
  have hnmem : ((test_masked (decode test) (decode target)).getD i 0,
      seq_no (test_masked (decode test) (decode target)) i)
      ∉ append_sequence_no (decode target) := by
    intro hmem
    have hle := fst_nonneg_of_mem_append_sequence_no htar hmem
    rw [hmask] at hle
    exact absurd hle (by norm_num)
  rw [if_neg hnmem]
  norm_num

/-- At a non-green position the vector entry is the yellow indicator: 0 or 1. -/
theorem getElem_match_pattern_vec_nongreen (test target : String) {i : Nat}
    (hi : i < (match_pattern_vec test target).length)
    (h1 : i < (decode test).length) (h2 : i < (decode target).length)
    (hne : (decode test)[i] ≠ (decode target)[i]) :
    (match_pattern_vec test target)[i] = 0 ∨ (match_pattern_vec test target)[i] = 1 := by
  obtain ⟨h1x, h2x, he⟩ := getElem_match_pattern_vec test target hi
  rw [he, if_neg hne]
  by_cases hmem : ((test_masked (decode test) (decode target)).getD i 0,
      seq_no (test_masked (decode test) (decode target)) i)
      ∈ append_sequence_no (decode target)
  · right
    rw [if_pos hmem]
    norm_num
  · left
    rw [if_neg hmem]
    norm_num

/-- Every component of the feedback vector is 0, 1 or 2 (no position is both
green and yellow). -/
theorem match_pattern_vec_mem_012 (test target : String)
    (htar : ∀ x ∈ decode target, 0 ≤ x) :
    ∀ v ∈ match_pattern_vec test target, v = 0 ∨ v = 1 ∨ v = 2 := by
  intro v hv
  rw [List.mem_iff_getElem] at hv
  obtain ⟨i, hi, rfl⟩ := hv
  obtain ⟨h1, h2, _⟩ := getElem_match_pattern_vec test target hi
  by_cases heq : (decode test)[i] = (decode target)[i]
  · right; right
    exact getElem_match_pattern_vec_green test target htar hi h1 h2 heq
  · rcases getElem_match_pattern_vec_nongreen test target hi h1 h2 heq with h | h
    · left; exact h
    · right; left; exact h

/-- The self score is the all-green vector. -/
theorem match_pattern_vec_self {w : String} (h : ValidWord w) :
    match_pattern_vec w w = List.replicate word_length 2 := by
  have hd := valid_decode h
  apply List.ext_getElem
  · rw [length_match_pattern_vec, hd.1, List.length_replicate]
    simp
  · intro i hi1 hi2
    rw [List.getElem_replicate]
    have h1 : i < (decode w).length := by
      rw [length_match_pattern_vec, hd.1, min_self] at hi1
      rw [hd.1]
      exact hi1
    exact getElem_match_pattern_vec_green w w (fun x hx => (hd.2 x hx).1) hi1 h1 h1 rfl

theorem exists_len_five {l : List Int} (h : l.length = 5) :
    ∃ a b c d e : Int, l = [a, b, c, d, e] := by
  rcases l with _ | ⟨a, l⟩
  · simp at h
  rcases l with _ | ⟨b, l⟩
  · simp at h
  rcases l with _ | ⟨c, l⟩
  · simp at h
  rcases l with _ | ⟨d, l⟩
  · simp at h
  rcases l with _ | ⟨e, l⟩
  · simp at h
  rcases l with _ | ⟨f, l⟩
  · exact ⟨a, b, c, d, e, rfl⟩
  · simp at h

/-- The integer encoding in terms of the five vector entries: position 0 is the
least-significant ternary digit. -/
theorem match_pattern_eq_of_vec {test target : String} {a b c d e : Int}
    (hv : match_pattern_vec test target = [a, b, c, d, e]) :
    match_pattern test target = a + 3 * b + 9 * c + 27 * d + 81 * e := by
  rw [match_pattern, hv]
  have hr : List.range word_length = [0, 1, 2, 3, 4] := rfl
  rw [hr]
  simp [List.zipWith]
  ring

/-- Ceiling division bound: if `n ≤ k * m` with `k ≥ 1` then
`ceil(n / k) = (n + k - 1) / k ≤ m`. -/
theorem nat_ceil_div_le {n k m : Nat} (hk : 1 ≤ k) (h : n ≤ k * m) : (n + k - 1) / k ≤ m := by
  have hstep : n + k - 1 ≤ k - 1 + k * m := by omega
  calc (n + k - 1) / k ≤ (k - 1 + k * m) / k := Nat.div_le_div_right hstep
    _ = (k - 1) / k + m := Nat.add_mul_div_left _ _ (by omega)
    _ = m := by rw [Nat.div_eq_of_lt (by omega), Nat.zero_add]

/-! ### Claim theorems -/

/-- C1: the claimed repeated-letter conservation invariant fails on the code.
At test "geese", target "begin", `match_pattern_vec` yields [1,2,1,0,0]: the
letter 'e' (code 4) receives one GREEN and one YELLOW marking — two non-BLACK
markings — although "begin" contains only one 'e'.  The YELLOW at test index 2
reuses the target 'e' already consumed by the GREEN at index 1, because the
source masks green positions only in the test word, never in the target. -/
theorem conservation_violation_geese_begin :
    match_pattern_vec "geese" "begin" = [1, 2, 1, 0, 0]
    ∧ ((decode "geese").zip (match_pattern_vec "geese" "begin")).countP
        (fun pv => pv.1 == 4 && pv.2 != 0) = 2
    ∧ (decode "begin").count 4 = 1 := by
  decide

/-- C2 counterexample: with survivors ["abxyz", "vwxyz"] and guess "abcde" the
two pattern groups (patterns 8 and 0) tie at the maximal cardinality 1, the
smallest tied pattern is 0 (group ["vwxyz"]), yet `reduce_targets_by_test`
returns the group of pattern 8 — the first-seen one — refuting the
smallest-pattern tie-break. -/
theorem smallest_pattern_tiebreak_counterexample :
    ["abxyz", "vwxyz"].map (fun target => match_pattern "abcde" target) = [8, 0]
    ∧ (["abxyz", "vwxyz"].map (fun target => match_pattern "abcde" target)).count 8 = 1
    ∧ (["abxyz", "vwxyz"].map (fun target => match_pattern "abcde" target)).count 0 = 1
    ∧ max_group_count ["abxyz", "vwxyz"] "abcde" = 1
    ∧ winning_pattern ["abxyz", "vwxyz"] "abcde" = 8
    ∧ reduce_targets_by_test ["abxyz", "vwxyz"] "abcde" = ["abxyz"] := by
  decide

/-- C2 (amended): ties among maximal pattern groups are broken first-seen, not
smallest-pattern: the winning pattern attains the maximal group count, and its
first occurrence in the scored pattern list is no later than that of any other
pattern attaining the maximal count. -/
theorem tiebreak_first_seen (targets : List String) (test : String) (h : targets ≠ []) :
    (targets.map (fun target => match_pattern test target)).count (winning_pattern targets test)
        = max_group_count targets test
    ∧ ∀ p : Int,
        (targets.map (fun target => match_pattern test target)).count p
            = max_group_count targets test →
          (targets.map (fun target => match_pattern test target)).indexOf
              (winning_pattern targets test)
            ≤ (targets.map (fun target => match_pattern test target)).indexOf p :=
  ⟨(reduce_characterization targets test h).1,
   fun p hp => winning_pattern_first_seen targets test h p hp⟩

theorem tiebreak_first_seen_witness :
    (["abxyz", "vwxyz"] : List String) ≠ []
    ∧ ((["abxyz", "vwxyz"].map (fun target => match_pattern "abcde" target)).count
          (winning_pattern ["abxyz", "vwxyz"] "abcde")
        = max_group_count ["abxyz", "vwxyz"] "abcde"
      ∧ ∀ p : Int,
          (["abxyz", "vwxyz"].map (fun target => match_pattern "abcde" target)).count p
              = max_group_count ["abxyz", "vwxyz"] "abcde" →
            (["abxyz", "vwxyz"].map (fun target => match_pattern "abcde" target)).indexOf
                (winning_pattern ["abxyz", "vwxyz"] "abcde")
              ≤ (["abxyz", "vwxyz"].map (fun target => match_pattern "abcde" target)).indexOf p) :=
  ⟨by decide, tiebreak_first_seen ["abxyz", "vwxyz"] "abcde" (by decide)⟩

/-- C3: the Partition Oracle postcondition: the returned list is exactly the
survivors scoring the winning pattern, in their original relative order (a
sublist); its cardinality bounds every pattern group's cardinality; and it is
at least `ceil(|survivors| / numberOfDistinctPatterns)` and at least 1. -/
theorem reduce_postcondition (targets : List String) (test : String) (h : targets ≠ []) :
    reduce_targets_by_test targets test
        = targets.filter (fun t => match_pattern test t == winning_pattern targets test)
    ∧ (reduce_targets_by_test targets test).Sublist targets
    ∧ (∀ p : Int, (targets.map (fun target => match_pattern test target)).count p
          ≤ (reduce_targets_by_test targets test).length)
    ∧ targets.length ≤ (reduce_targets_by_test targets test).length
        * (uniqueList (targets.map (fun target => match_pattern test target))).length
    ∧ (targets.length
          + (uniqueList (targets.map (fun target => match_pattern test target))).length - 1)
        / (uniqueList (targets.map (fun target => match_pattern test target))).length
        ≤ (reduce_targets_by_test targets test).length
    ∧ 1 ≤ (reduce_targets_by_test targets test).length := by
  have hchar := reduce_characterization targets test h
  have hlen := length_reduce_eq_count targets test h
  have hmul := length_le_reduce_mul_card targets test h
  have hpos : 1 ≤ (reduce_targets_by_test targets test).length := by
    rw [hlen, hchar.1]
    exact max_group_count_pos targets test h
  refine ⟨hchar.2.2, ?_, ?_, hmul, ?_, hpos⟩
  · rw [hchar.2.2]
    exact List.filter_sublist targets
  · intro p
    rw [hlen, hchar.1]
    exact hchar.2.1 p
  · have hk1 : 1 ≤ (uniqueList (targets.map (fun target => match_pattern test target))).length := by
      have hne : uniqueList (targets.map (fun target => match_pattern test target)) ≠ [] :=
        uniqueList_ne_nil (by simpa using h)
      exact List.length_pos.mpr hne
    refine nat_ceil_div_le hk1 ?_
    rw [Nat.mul_comm]
    exact hmul

theorem reduce_postcondition_witness :
    (["a"] : List String) ≠ []
    ∧ (reduce_targets_by_test ["a"] "b"
        = (["a"] : List String).filter (fun t => match_pattern "b" t == winning_pattern ["a"] "b")
      ∧ (reduce_targets_by_test ["a"] "b").Sublist ["a"]
      ∧ (∀ p : Int, ((["a"] : List String).map (fun target => match_pattern "b" target)).count p
            ≤ (reduce_targets_by_test ["a"] "b").length)
      ∧ (["a"] : List String).length ≤ (reduce_targets_by_test ["a"] "b").length
          * (uniqueList ((["a"] : List String).map (fun target => match_pattern "b" target))).length
      ∧ ((["a"] : List String).length
            + (uniqueList ((["a"] : List String).map
                (fun target => match_pattern "b" target))).length - 1)
          / (uniqueList ((["a"] : List String).map
              (fun target => match_pattern "b" target))).length
          ≤ (reduce_targets_by_test ["a"] "b").length
      ∧ 1 ≤ (reduce_targets_by_test ["a"] "b").length) :=
  ⟨by decide, reduce_postcondition ["a"] "b" (by decide)⟩

/-- C4: the worked example: score("speed", "abide") is [0,0,1,0,1] — YELLOW at
test indices 2 ('e') and 4 ('d'), BLACK elsewhere, exactly two non-BLACK
entries. -/
theorem worked_example_vector :
    match_pattern_vec "speed" "abide" = [0, 0, 1, 0, 1]
    ∧ (match_pattern_vec "speed" "abide").countP (fun v => v != 0) = 2 := by
  decide

/-- C5 counterexample: the encoding of score("speed", "abide") is not 10. -/
theorem worked_example_encoding_ne_ten : match_pattern "speed" "abide" ≠ 10 := by
  decide

/-- C5 (amended): with the code's least-significant-first digit order
(`sum(pattern[i] * 3^i)`), the encoding of score("speed", "abide") is 90. -/
theorem worked_example_encoding : match_pattern "speed" "abide" = 90 := by
  decide

/-- C6: self-score identity: any valid word scored against itself is marked
GREEN at every position, and the encoding is 3^L − 1 = 242. -/
theorem self_score_all_green (w : String) (h : ValidWord w) :
    match_pattern_vec w w = List.replicate word_length 2
    ∧ match_pattern w w = 3 ^ word_length - 1
    ∧ match_pattern w w = 242 := by
  have hv := match_pattern_vec_self h
  have h242 : match_pattern w w = 242 := by
    have hv5 : match_pattern_vec w w = [2, 2, 2, 2, 2] := by
      rw [hv]
      rfl
    rw [match_pattern_eq_of_vec hv5]
    norm_num
  refine ⟨hv, ?_, h242⟩
  rw [h242]
  norm_num [word_length]

theorem self_score_all_green_witness :
    ValidWord "speed"
    ∧ (match_pattern_vec "speed" "speed" = List.replicate word_length 2
      ∧ match_pattern "speed" "speed" = 3 ^ word_length - 1
      ∧ match_pattern "speed" "speed" = 242) :=
  ⟨by decide, self_score_all_green "speed" (by decide)⟩

/-- C7: monotonicity of the Partition Oracle: the kept group never exceeds the
survivors in size, with equality exactly when all survivors share one pattern
against the guess. -/
theorem reduce_monotone (targets : List String) (test : String) (h : targets ≠ []) :
    (reduce_targets_by_test targets test).length ≤ targets.length
    ∧ ((reduce_targets_by_test targets test).length = targets.length ↔
        ∀ a ∈ targets, ∀ b ∈ targets, match_pattern test a = match_pattern test b) := by
  have hchar := reduce_characterization targets test h
  have hfil := hchar.2.2
  constructor
  · rw [hfil]
    exact List.length_filter_le _ _
  constructor
  · intro heq a ha b hb
    rw [hfil] at heq
    have hall := List.filter_length_eq_length.mp heq
    have ha3 : match_pattern test a = winning_pattern targets test := by
      simpa using hall a ha
    have hb3 : match_pattern test b = winning_pattern targets test := by
      simpa using hall b hb
    rw [ha3, hb3]
  · intro hall
    rw [hfil]
    apply List.filter_length_eq_length.mpr
    intro a ha
    have hW := winning_pattern_mem targets test h
    rw [List.mem_map] at hW
    obtain ⟨t0, ht0, hft0⟩ := hW
    have hab := hall a ha t0 ht0
    rw [hab, hft0]
    simp

theorem reduce_monotone_witness :
    (["ab", "cd"] : List String) ≠ []
    ∧ ((reduce_targets_by_test ["ab", "cd"] "ab").length ≤ (["ab", "cd"] : List String).length
      ∧ ((reduce_targets_by_test ["ab", "cd"] "ab").length
            = (["ab", "cd"] : List String).length ↔
          ∀ a ∈ (["ab", "cd"] : List String), ∀ b ∈ (["ab", "cd"] : List String),
            match_pattern "ab" a = match_pattern "ab" b)) :=
  ⟨by decide, reduce_monotone ["ab", "cd"] "ab" (by decide)⟩

/-- C8: terminal-state idempotence: a singleton survivors list is returned
unchanged by `reduce_targets_by_test`, whatever the guess. -/
theorem reduce_singleton (t test : String) :
    reduce_targets_by_test [t] test = [t] := by
  simp [reduce_targets_by_test, uniqueList, uniqueListAux, List.indexOf_cons_self]

/-- C9: FeedbackPattern well-formedness: every component of the feedback vector
of two valid words is 0, 1 or 2, and the encoded integer lies in [0, 3^L). -/
theorem pattern_wellformed (test target : String) (h1 : ValidWord test)
    (h2 : ValidWord target) :
    (∀ v ∈ match_pattern_vec test target, v = 0 ∨ v = 1 ∨ v = 2)
    ∧ 0 ≤ match_pattern test target ∧ match_pattern test target < 3 ^ word_length := by
  have hd1 := valid_decode h1
  have hd2 := valid_decode h2
  have hmem := match_pattern_vec_mem_012 test target (fun x hx => (hd2.2 x hx).1)
  refine ⟨hmem, ?_⟩
  have hlen : (match_pattern_vec test target).length = 5 := by
    rw [length_match_pattern_vec, hd1.1, hd2.1, min_self]
    rfl
  obtain ⟨a, b, c, d, e, hv⟩ := exists_len_five hlen
  have hm := match_pattern_eq_of_vec hv
  rw [hv] at hmem
  have ha := hmem a (by simp)
  have hb := hmem b (by simp)
  have hc := hmem c (by simp)
  have hdd := hmem d (by simp)
  have he := hmem e (by simp)
  rw [hm]
  have h35 : (3 : Int) ^ word_length = 243 := by norm_num [word_length]
  rw [h35]
  omega

theorem pattern_wellformed_witness :
    ValidWord "speed" ∧ ValidWord "abide"
    ∧ ((∀ v ∈ match_pattern_vec "speed" "abide", v = 0 ∨ v = 1 ∨ v = 2)
      ∧ 0 ≤ match_pattern "speed" "abide" ∧ match_pattern "speed" "abide" < 3 ^ word_length) :=
  ⟨by decide, by decide, pattern_wellformed "speed" "abide" (by decide) (by decide)⟩

/-- C10: the implicit first-seen tie-break: the kept group is the one whose
pattern attains the maximal count and occurs earliest in the scored pattern
list — `tf.unique_with_counts` enumerates patterns in first-appearance order
and the arg-max of the counts resolves ties toward the lowest index. -/
theorem reduce_first_seen_argmax (targets : List String) (test : String) (h : targets ≠ []) :
    reduce_targets_by_test targets test
        = targets.filter (fun t => match_pattern test t == winning_pattern targets test)
    ∧ (targets.map (fun target => match_pattern test target)).count
        (winning_pattern targets test) = max_group_count targets test
    ∧ ∀ p : Int,
        (targets.map (fun target => match_pattern test target)).count p
            = max_group_count targets test →
          (targets.map (fun target => match_pattern test target)).indexOf
              (winning_pattern targets test)
            ≤ (targets.map (fun target => match_pattern test target)).indexOf p := by
  have hchar := reduce_characterization targets test h
  exact ⟨hchar.2.2, hchar.1, fun p hp => winning_pattern_first_seen targets test h p hp⟩

theorem reduce_first_seen_argmax_witness :
    (["ax", "bx", "cy"] : List String) ≠ []
    ∧ (reduce_targets_by_test ["ax", "bx", "cy"] "zz"
        = (["ax", "bx", "cy"] : List String).filter
            (fun t => match_pattern "zz" t == winning_pattern ["ax", "bx", "cy"] "zz")
      ∧ ((["ax", "bx", "cy"] : List String).map (fun target => match_pattern "zz" target)).count
          (winning_pattern ["ax", "bx", "cy"] "zz") = max_group_count ["ax", "bx", "cy"] "zz"
      ∧ ∀ p : Int,
          ((["ax", "bx", "cy"] : List String).map
              (fun target => match_pattern "zz" target)).count p
              = max_group_count ["ax", "bx", "cy"] "zz" →
            ((["ax", "bx", "cy"] : List String).map
                (fun target => match_pattern "zz" target)).indexOf
                (winning_pattern ["ax", "bx", "cy"] "zz")
              ≤ ((["ax", "bx", "cy"] : List String).map
                  (fun target => match_pattern "zz" target)).indexOf p) :=
  ⟨by decide, reduce_first_seen_argmax ["ax", "bx", "cy"] "zz" (by decide)⟩

end Absurdle
